import Mathlib

/-!
Verification of the signature-matching core of fido 0.4 (`src/fido/run.py`).

The embedding represents Python byte strings as `List Nat` (one `Nat` per byte)
and Python's compiled regular expressions as an explicit abstract syntax tree
with Brzozowski-derivative matching.  `re.match` (match at offset 0, i.e. the
pattern matches some prefix of the buffer) and `re.search` (the pattern matches
starting at some offset) are embedded as `re_match` and `re_search`.  The
`re.DOTALL` flag used by `Fido.compile_signatures` is reflected by letting the
wildcard `Regex.any` match every byte value.

Stateful instrumentation (wall-clock timing accumulators, `current_*` progress
fields) is embedded twice: the plain functions below drop it, and a second,
state-passing embedding (`check_formats_timed` and friends) keeps it, with the
clock modelled as an oracle list of readings consumed one `time.clock()` call
at a time.  The two embeddings are proved to produce the same match results.
-/

/-- Byte buffers: Python byte strings as lists of byte values. -/
abbrev Buf := List Nat

deriving instance DecidableEq for Except

/-- Abstract syntax of the byte-regex dialect used by the signature patterns. -/
inductive Regex where
  | fail : Regex
  | eps : Regex
  | byte : Nat → Regex
  | any : Regex
  | seq : Regex → Regex → Regex
  | alt : Regex → Regex → Regex
  | star : Regex → Regex
deriving DecidableEq, Repr

/-- Does the regex accept the empty string? -/
def Regex.nullable : Regex → Bool
  | .fail => false
  | .eps => true
  | .byte _ => false
  | .any => false
  | .seq r1 r2 => r1.nullable && r2.nullable
  | .alt r1 r2 => r1.nullable || r2.nullable
  | .star _ => true

/-- Brzozowski derivative of a regex with respect to one byte. -/
def Regex.deriv : Regex → Nat → Regex
  | .fail, _ => .fail
  | .eps, _ => .fail
  | .byte b, c => if c = b then .eps else .fail
  | .any, _ => .eps
  | .seq r1 r2, c =>
      if r1.nullable then .alt (.seq (r1.deriv c) r2) (r2.deriv c)
      else .seq (r1.deriv c) r2
  | .alt r1 r2, c => .alt (r1.deriv c) (r2.deriv c)
  | .star r, c => .seq (r.deriv c) (.star r)

/-- Python `re.match(r, buf)`: the regex matches some prefix of the buffer. -/
def re_match (r : Regex) : Buf → Bool
  | [] => r.nullable
  | c :: cs => r.nullable || re_match (r.deriv c) cs

/-- Python `re.search(r, buf)`: the regex matches starting at some offset. -/
def re_search (r : Regex) : Buf → Bool
  | [] => re_match r []
  | c :: cs => re_match r (c :: cs) || re_search r cs

/-- Is the first list a prefix of the second list? -/
def isPrefixL : List Char → List Char → Bool
  | [], _ => true
  | _ :: _, [] => false
  | a :: as, b :: bs => decide (a = b) && isPrefixL as bs

/-- Does the second list contain the first as a contiguous sublist? -/
def containsSub : List Char → List Char → Bool
  | needle, [] => isPrefixL needle []
  | needle, c :: t => isPrefixL needle (c :: t) || containsSub needle t

/-- Python `needle in haystack` on strings (substring containment). -/
def inStr (needle haystack : String) : Bool :=
  containsSub needle.data haystack.data

/-- One PRONOM byte sequence: a position anchor expressed as the raw
`PositionType` string, the pattern source (`regexstring`), and the compiled
pattern (`regex`, set by `Fido.compile_signatures`). -/
structure ByteSeq where
  PositionType : String
  regexstring : Regex
  regex : Regex
deriving DecidableEq, Repr

/-- One PRONOM signature: a named conjunction of byte sequences. -/
structure Sig where
  SignatureName : String
  bytesequences : List ByteSeq
deriving DecidableEq, Repr

/-- One PRONOM format.  `relatedformat` is `Option`al because the Python code
reads it reflectively with `getattr(f2, u'relatedformat', [])`: a format
record may simply lack the attribute. -/
structure Format where
  FormatID : Nat
  Identifier : String
  FormatName : String
  signatures : List Sig
  relatedformat : Option (List (String × Nat))
deriving DecidableEq, Repr

/-- `re.compile` in this embedding: the pattern source already is the compiled
AST (the `DOTALL` semantics is built into `Regex.any`), so compilation is the
identity on sources. -/
def re_compile (r : Regex) : Regex := r

/-- `Fido.compile_signatures` (run.py lines 47-51): set every byte sequence's
`regex` to the compilation of its `regexstring`. -/
def compile_signatures (formats : List Format) : List Format :=
  formats.map fun f =>
    { f with signatures := f.signatures.map fun s =>
        { s with bytesequences := s.bytesequences.map fun b =>
            { b with regex := re_compile b.regexstring } } }

/-- The load-time error kinds named by the specification (section 7). -/
inductive LoadError where
  | PatternCompile
  | PriorityCycle
  | UnknownPriorityTarget
deriving DecidableEq, Repr

/-- The catalog-loading part of `Fido.__init__` (run.py lines 27-45): copy the
format list (`formats.all_formats[:]`) and compile every signature pattern.
No validation of the priority references is performed anywhere in it. -/
def fido_init (formats : List Format) : Except LoadError (List Format) :=
  .ok (compile_signatures formats)

/-- The inner loop of `Fido.as_good_as_any` (run.py lines 154-158): does `f2`
declare priority over `f1`, i.e. does `f2`'s related-format list carry a
`(u'Has priority over', f1.FormatID)` entry? -/
def dominates (f2 f1 : Format) : Bool :=
  (f2.relatedformat.getD []).any fun p =>
    decide (p.1 = "Has priority over") && decide (p.2 = f1.FormatID)

/-- `Fido.as_good_as_any` (run.py lines 149-159): `f1` is as good as every
entry of `match_list` iff no entry with a different format declares priority
over `f1`. -/
def as_good_as_any (f1 : Format) (match_list : List (Format × Sig)) : Bool :=
  match_list.all fun p => decide (p.1 = f1) || !(dominates p.1 f1)

/-- The pattern loop of `Fido.check_sig` (run.py lines 194-208).  `m` is the
running `match` flag: a missed `BOF`/`EOF` pattern returns `False` at once, a
missed `Variable` pattern only clears the flag and keeps going, and an
unrecognised `PositionType` raises. -/
def check_sig_aux (bof eof : Buf) : List ByteSeq → Bool → Except Unit Bool
  | [], m => .ok m
  | b :: bs, m =>
    if inStr "BOF" b.PositionType then
      if re_match b.regex bof then check_sig_aux bof eof bs m else .ok false
    else if inStr "EOF" b.PositionType then
      if re_match b.regex eof then check_sig_aux bof eof bs m else .ok false
    else if inStr "Variable" b.PositionType then
      if re_search b.regex bof then check_sig_aux bof eof bs m
      else check_sig_aux bof eof bs false
    else .error ()

/-- `Fido.check_sig` (run.py lines 191-214). -/
def check_sig (sig : Sig) (bof eof : Buf) : Except Unit Bool :=
  check_sig_aux bof eof sig.bytesequences true

/-- The single-pattern dispatch of `Fido.check_sig` (run.py lines 198-208) in
isolation: which anchor the `PositionType` string selects and what the pattern
test returns for it. -/
def evalPattern (b : ByteSeq) (bof eof : Buf) : Except Unit Bool :=
  if inStr "BOF" b.PositionType then .ok (re_match b.regex bof)
  else if inStr "EOF" b.PositionType then .ok (re_match b.regex eof)
  else if inStr "Variable" b.PositionType then .ok (re_search b.regex bof)
  else .error ()

/-- The signature loop of `Fido.check_format` (run.py lines 182-187): return
the first signature that matches, paired with the format. -/
def check_format_aux (format : Format) (bof eof : Buf) :
    List Sig → Except Unit (Option (Format × Sig))
  | [] => .ok none
  | s :: rest =>
    match check_sig s bof eof with
    | .error e => .error e
    | .ok true => .ok (some (format, s))
    | .ok false => check_format_aux format bof eof rest

/-- `Fido.check_format` (run.py lines 179-189). -/
def check_format (format : Format) (bof eof : Buf) :
    Except Unit (Option (Format × Sig)) :=
  check_format_aux format bof eof format.signatures

/-- The first pass of `Fido.check_formats` (run.py lines 164-171): scan the
catalog in order, skip formats already beaten by a collected match, append the
match of every surviving format that matches. -/
def check_formats_loop (bof eof : Buf) :
    List Format → List (Format × Sig) → Except Unit (List (Format × Sig))
  | [], result => .ok result
  | format :: rest, result =>
    if as_good_as_any format result then
      match check_format format bof eof with
      | .error e => .error e
      | .ok none => check_formats_loop bof eof rest result
      | .ok (some m) => check_formats_loop bof eof rest (result ++ [m])
    else check_formats_loop bof eof rest result

/-- `Fido.check_formats` (run.py lines 161-177): first pass, then the second
pass that filters the collected list against itself. -/
def check_formats (formats : List Format) (bof eof : Buf) :
    Except Unit (List (Format × Sig)) :=
  match check_formats_loop bof eof formats [] with
  | .error e => .error e
  | .ok result => .ok (result.filter fun p => as_good_as_any p.1 result)

/-- The sampling part of `Fido.check_file` (run.py lines 136-147), the
random-access mode: read the first `bufsize` bytes; if the file is larger than
`bufsize`, seek to `size - bufsize` from the start (`f.seek(-bufsize, 2)`) and
read the last `bufsize` bytes, else alias the tail to the head. -/
def file_sample (bufsize : Nat) (content : List Nat) : List Nat × List Nat :=
  let size := content.length
  let bofbuffer := content.take bufsize
  if size > bufsize then (bofbuffer, (content.drop (size - bufsize)).take bufsize)
  else (bofbuffer, bofbuffer)

/-- The sampling part of `Fido.check_zipfile` (run.py lines 115-125), the
streaming mode: each `f.read(k)` consumes `min(k, remaining)` bytes of the
stream.  After the head buffer the code computes `(n, r) = divmod(size,
bufsize)`, reads a full buffer for every element of `range(1, n - 1)` (that is
`n - 2` reads), reads `r` more bytes, and takes the next `bufsize` bytes as
the tail buffer. -/
def zip_sample (bufsize : Nat) (content : List Nat) : List Nat × List Nat :=
  let size := content.length
  let bofbuffer := content.take bufsize
  let rest := content.drop bufsize
  if size > bufsize then
    let n := size / bufsize
    let r := size % bufsize
    let rest1 := rest.drop ((n - 2) * bufsize)
    let rest2 := rest1.drop r
    (bofbuffer, rest2.take bufsize)
  else (bofbuffer, bofbuffer)

/-- The mutable `Fido` instance state touched by the matcher: the clock oracle
(readings still to be returned by `time.clock()`), the `current_*` progress
fields, and the two timing accumulator dictionaries (as association lists;
the `{'name': ...}` sentinel entry of the Python dicts is the `label`). -/
structure FidoState where
  clock : List Nat
  current_count : Nat
  current_format : Option Format
  current_sig : Option Sig
  current_pat : Option ByteSeq
  sig_label : String
  format_label : String
  time_formats : List (Format × Nat)
  time_sigs : List (Sig × Nat)
deriving Repr

/-- One `time.clock()` call: consume the next oracle reading (0 if the oracle
is exhausted). -/
def clockRead (st : FidoState) : Nat × FidoState :=
  (st.clock.headD 0, { st with clock := st.clock.tail })

/-- `d[k] = v + d.get(k, 0)` on an association list. -/
def bumpTime {α : Type} [DecidableEq α] : List (α × Nat) → α → Nat → List (α × Nat)
  | [], k, v => [(k, v)]
  | (k', v') :: rest, k, v =>
      if k' = k then (k', v + v') :: rest else (k', v') :: bumpTime rest k v

/-- The pattern loop of `Fido.check_sig` with its instrumentation: `t` is the
loop-entry clock reading; every iteration stores `current_pat` and reads the
clock for `t_beg`, a successfully dispatched pattern reads the clock again for
`t_end` (an early `return False` and the bad-anchor raise skip that read), and
the final fall-through charges `t_end - t` to the signature's accumulator.
The `t_end - t_beg > 0.05` diagnostic print goes to stdout only and is not
part of the state. -/
def check_sig_timed_aux (sig : Sig) (bof eof : Buf) (t : Nat) :
    List ByteSeq → Bool → FidoState → Except Unit Bool × FidoState
  | [], m, st =>
      let (tEnd, st1) := clockRead st
      (.ok m, { st1 with time_sigs := bumpTime st1.time_sigs sig (tEnd - t) })
  | b :: bs, m, st =>
      let st1 := { st with current_pat := some b }
      let (_, st2) := clockRead st1
      if inStr "BOF" b.PositionType then
        if re_match b.regex bof then
          let (_, st3) := clockRead st2
          check_sig_timed_aux sig bof eof t bs m st3
        else (.ok false, st2)
      else if inStr "EOF" b.PositionType then
        if re_match b.regex eof then
          let (_, st3) := clockRead st2
          check_sig_timed_aux sig bof eof t bs m st3
        else (.ok false, st2)
      else if inStr "Variable" b.PositionType then
        let (_, st3) := clockRead st2
        if re_search b.regex bof then check_sig_timed_aux sig bof eof t bs m st3
        else check_sig_timed_aux sig bof eof t bs false st3
      else (.error (), st2)

/-- `Fido.check_sig` with its instrumentation. -/
def check_sig_timed (sig : Sig) (bof eof : Buf) (st : FidoState) :
    Except Unit Bool × FidoState :=
  let (t, st1) := clockRead st
  check_sig_timed_aux sig bof eof t sig.bytesequences true st1

/-- The signature loop of `Fido.check_format` with its instrumentation: store
`current_sig`, run the timed signature check, and on loop exit (exhaustion or
`break`) charge `time.clock() - t` to the format's accumulator; a raising
signature check escapes before the accumulator update. -/
def check_format_timed_aux (format : Format) (bof eof : Buf) (t : Nat) :
    List Sig → FidoState → Except Unit (Option (Format × Sig)) × FidoState
  | [], st =>
      let (tEnd, st1) := clockRead st
      (.ok none,
       { st1 with time_formats := bumpTime st1.time_formats format (tEnd - t) })
  | s :: rest, st =>
      let st1 := { st with current_sig := some s }
      match check_sig_timed s bof eof st1 with
      | (.error e, st2) => (.error e, st2)
      | (.ok true, st2) =>
          let (tEnd, st3) := clockRead st2
          (.ok (some (format, s)),
           { st3 with time_formats := bumpTime st3.time_formats format (tEnd - t) })
      | (.ok false, st2) => check_format_timed_aux format bof eof t rest st2

/-- `Fido.check_format` with its instrumentation. -/
def check_format_timed (format : Format) (bof eof : Buf) (st : FidoState) :
    Except Unit (Option (Format × Sig)) × FidoState :=
  let (t, st1) := clockRead st
  check_format_timed_aux format bof eof t format.signatures st1

/-- The first pass of `Fido.check_formats` with its instrumentation:
`current_format` is stored before the pruning guard. -/
def check_formats_timed_loop (bof eof : Buf) :
    List Format → List (Format × Sig) → FidoState →
      Except Unit (List (Format × Sig)) × FidoState
  | [], result, st => (.ok result, st)
  | format :: rest, result, st =>
      let st1 := { st with current_format := some format }
      if as_good_as_any format result then
        match check_format_timed format bof eof st1 with
        | (.error e, st2) => (.error e, st2)
        | (.ok none, st2) => check_formats_timed_loop bof eof rest result st2
        | (.ok (some m), st2) =>
            check_formats_timed_loop bof eof rest (result ++ [m]) st2
      else check_formats_timed_loop bof eof rest result st1

/-- `Fido.check_formats` with its instrumentation (`self.current_count += 1`
and all the timing state threaded through the two passes). -/
def check_formats_timed (formats : List Format) (bof eof : Buf)
    (st : FidoState) : Except Unit (List (Format × Sig)) × FidoState :=
  let st0 := { st with current_count := st.current_count + 1 }
  match check_formats_timed_loop bof eof formats [] st0 with
  | (.error e, st1) => (.error e, st1)
  | (.ok result, st1) =>
      (.ok (result.filter fun p => as_good_as_any p.1 result), st1)

/-- Does the `PositionType` string select one of the three recognised
anchors? -/
def goodPT (b : ByteSeq) : Bool :=
  inStr "BOF" b.PositionType || inStr "EOF" b.PositionType ||
    inStr "Variable" b.PositionType

/-- Every pattern of every signature of the format carries a recognised
anchor (the data-model invariant of specification section 3). -/
def cleanFormat (f : Format) : Bool :=
  f.signatures.all fun s => s.bytesequences.all goodPT

/-- Does the format match the sampled buffers, i.e. does `check_format`
return a pair for it? -/
def fmtMatches (f : Format) (bof eof : Buf) : Bool :=
  match check_format f bof eof with
  | .ok (some _) => true
  | _ => false

/-- Concrete fixture: a signature whose single BOF pattern matches any
non-empty buffer. -/
def sigAnyW : Sig := ⟨"sig-any", [⟨"Absolute from BOF", .any, .any⟩]⟩

/-- Concrete fixture: a format without a `relatedformat` attribute. -/
def fmtAW : Format := ⟨100, "fmt/A", "A", [sigAnyW], none⟩

/-- Concrete fixture: a format with an empty `relatedformat` list. -/
def fmtBW : Format := ⟨200, "fmt/B", "B", [sigAnyW], some []⟩

/-- Concrete fixture: a signature matching buffers that start with byte 80. -/
def sigPKW : Sig := ⟨"sig-pk", [⟨"Absolute from BOF", .byte 80, .byte 80⟩]⟩

/-- Concrete fixture: a generic container format. -/
def fmtGENW : Format := ⟨300, "fmt/gen", "Generic", [sigPKW], some []⟩

/-- Concrete fixture: a format declaring priority over `fmtGENW`. -/
def fmtDOCXW : Format :=
  ⟨400, "fmt/docx", "DOCX", [sigPKW], some [("Has priority over", 300)]⟩

/-- Concrete fixture: first half of a two-cycle in the priority graph. -/
def fmtCycAW : Format :=
  ⟨500, "fmt/cycA", "CycA", [sigAnyW], some [("Has priority over", 600)]⟩

/-- Concrete fixture: second half of a two-cycle in the priority graph. -/
def fmtCycBW : Format :=
  ⟨600, "fmt/cycB", "CycB", [sigAnyW], some [("Has priority over", 500)]⟩

/-- Concrete fixture: a Variable pattern looking for byte 9. -/
def bVarMissW : ByteSeq := ⟨"Variable", .byte 9, .byte 9⟩

/-- Concrete fixture: a pattern with an unrecognised `PositionType`. -/
def bBadW : ByteSeq := ⟨"Indeterminate", .any, .any⟩

/-- Concrete fixture: a pattern whose `PositionType` mentions both BOF and
Variable. -/
def bBothW : ByteSeq := ⟨"BOF or Variable", .byte 7, .byte 7⟩

/-! ## Instrumentation does not affect match results -/

theorem check_sig_timed_aux_fst (sig : Sig) (bof eof : Buf) (t : Nat) :
    ∀ (l : List ByteSeq) (m : Bool) (st : FidoState),
      (check_sig_timed_aux sig bof eof t l m st).1 = check_sig_aux bof eof l m := by
  intro l
  induction l with
  | nil => intro m st; simp [check_sig_timed_aux, check_sig_aux]
  | cons b bs ih =>
      intro m st
      simp only [check_sig_timed_aux, check_sig_aux, clockRead]
      split_ifs <;> simp [ih]

theorem check_sig_timed_fst (sig : Sig) (bof eof : Buf) (st : FidoState) :
    (check_sig_timed sig bof eof st).1 = check_sig sig bof eof := by
  simp [check_sig_timed, check_sig, clockRead, check_sig_timed_aux_fst]

theorem check_format_timed_aux_fst (format : Format) (bof eof : Buf) (t : Nat) :
    ∀ (l : List Sig) (st : FidoState),
      (check_format_timed_aux format bof eof t l st).1 =
        check_format_aux format bof eof l := by
  intro l
  induction l with
  | nil => intro st; simp [check_format_timed_aux, check_format_aux]
  | cons s rest ih =>
      intro st
      have hr : check_sig s bof eof =
          (check_sig_timed s bof eof { st with current_sig := some s }).1 :=
        (check_sig_timed_fst s bof eof _).symm
      rcases hpair : check_sig_timed s bof eof { st with current_sig := some s }
        with ⟨r, st2⟩
      rw [hpair] at hr
      cases r with
      | error e => simp [check_format_timed_aux, check_format_aux, hpair, hr]
      | ok v =>
          cases v <;>
            simp [check_format_timed_aux, check_format_aux, hpair, hr, ih, clockRead]

theorem check_format_timed_fst (format : Format) (bof eof : Buf) (st : FidoState) :
    (check_format_timed format bof eof st).1 = check_format format bof eof := by
  simp [check_format_timed, check_format, clockRead, check_format_timed_aux_fst]

theorem check_formats_timed_loop_fst (bof eof : Buf) :
    ∀ (l : List Format) (result : List (Format × Sig)) (st : FidoState),
      (check_formats_timed_loop bof eof l result st).1 =
        check_formats_loop bof eof l result := by
  intro l
  induction l with
  | nil => intro result st; simp [check_formats_timed_loop, check_formats_loop]
  | cons f rest ih =>
      intro result st
      by_cases hg : as_good_as_any f result
      · have hr : check_format f bof eof =
            (check_format_timed f bof eof { st with current_format := some f }).1 :=
          (check_format_timed_fst f bof eof _).symm
        rcases hpair : check_format_timed f bof eof { st with current_format := some f }
          with ⟨r, st2⟩
        rw [hpair] at hr
        cases r with
        | error e => simp [check_formats_timed_loop, check_formats_loop, hg, hpair, hr]
        | ok o =>
            cases o <;>
              simp [check_formats_timed_loop, check_formats_loop, hg, hpair, hr, ih]
      · simp [check_formats_timed_loop, check_formats_loop, hg, ih]

theorem check_formats_timed_fst (formats : List Format) (bof eof : Buf)
    (st : FidoState) :
    (check_formats_timed formats bof eof st).1 = check_formats formats bof eof := by
  have hr : check_formats_loop bof eof formats [] =
      (check_formats_timed_loop bof eof formats []
        { st with current_count := st.current_count + 1 }).1 :=
    (check_formats_timed_loop_fst bof eof formats [] _).symm
  rcases hpair : check_formats_timed_loop bof eof formats []
      { st with current_count := st.current_count + 1 } with ⟨r, st1⟩
  rw [hpair] at hr
  cases r with
  | error e => simp [check_formats_timed, check_formats, hpair, hr]
  | ok result => simp [check_formats_timed, check_formats, hpair, hr]

/-! ## Basic characterisations of the matcher -/

theorem dominates_iff (f2 f1 : Format) :
    dominates f2 f1 = true ↔
      ∃ q ∈ f2.relatedformat.getD [],
        q.1 = "Has priority over" ∧ q.2 = f1.FormatID := by
  simp [dominates]

theorem as_good_as_any_eq_true_iff (f1 : Format) (ml : List (Format × Sig)) :
    as_good_as_any f1 ml = true ↔
      ∀ p ∈ ml, p.1 ≠ f1 → dominates p.1 f1 = false := by
  simp only [as_good_as_any, List.all_eq_true, Bool.or_eq_true,
    decide_eq_true_eq, Bool.not_eq_true']
  constructor
  · intro h p hp hne
    rcases h p hp with h1 | h2
    · exact absurd h1 hne
    · exact h2
  · intro h p hp
    by_cases he : p.1 = f1
    · exact Or.inl he
    · exact Or.inr (h p hp he)

theorem as_good_as_any_eq_false_iff (f1 : Format) (ml : List (Format × Sig)) :
    as_good_as_any f1 ml = false ↔
      ∃ p ∈ ml, p.1 ≠ f1 ∧ dominates p.1 f1 = true := by
  rw [← Bool.not_eq_true, as_good_as_any_eq_true_iff]
  push_neg
  constructor
  · intro ⟨p, hp, hne, hd⟩
    exact ⟨p, hp, hne, by simpa using hd⟩
  · intro ⟨p, hp, hne, hd⟩
    exact ⟨p, hp, hne, by simpa using hd⟩

theorem check_format_aux_eq_none_iff (f : Format) (bof eof : Buf) :
    ∀ l, check_format_aux f bof eof l = .ok none ↔
      ∀ s ∈ l, check_sig s bof eof = .ok false := by
  intro l
  induction l with
  | nil => simp [check_format_aux]
  | cons a rest ih =>
      rcases h : check_sig a bof eof with e | v
      · simp [check_format_aux, h]
      · cases v
        · simp [check_format_aux, h, ih]
        · simp [check_format_aux, h]

theorem check_format_aux_eq_some_iff (f : Format) (bof eof : Buf) :
    ∀ (l : List Sig) (g : Format) (s : Sig),
      check_format_aux f bof eof l = .ok (some (g, s)) ↔
        g = f ∧ ∃ pre post, l = pre ++ s :: post ∧
          (∀ s' ∈ pre, check_sig s' bof eof = .ok false) ∧
          check_sig s bof eof = .ok true := by
  intro l
  induction l with
  | nil =>
      intro g s
      simp [check_format_aux]
  | cons a rest ih =>
      intro g s
      rcases h : check_sig a bof eof with e | v
      · simp only [check_format_aux, h]
        constructor
        · intro hx; cases hx
        · rintro ⟨hg, pre, post, hdec, hpre, hs⟩
          cases pre with
          | nil =>
              simp only [List.nil_append, List.cons.injEq] at hdec
              rw [← hdec.1] at hs
              rw [h] at hs
              cases hs
          | cons a' pre' =>
              simp only [List.cons_append, List.cons.injEq] at hdec
              have ha' : check_sig a' bof eof = .ok false :=
                hpre a' (List.mem_cons_self a' pre')
              rw [← hdec.1] at ha'
              rw [h] at ha'
              cases ha'
      · cases v
        · -- check_sig a = .ok false
          simp only [check_format_aux, h]
          rw [ih g s]
          constructor
          · rintro ⟨hg, pre, post, hdec, hpre, hs⟩
            refine ⟨hg, a :: pre, post, by rw [hdec, List.cons_append], ?_, hs⟩
            intro s' hs'
            rcases List.mem_cons.mp hs' with h1 | h2
            · rw [h1]; exact h
            · exact hpre s' h2
          · rintro ⟨hg, pre, post, hdec, hpre, hs⟩
            cases pre with
            | nil =>
                simp only [List.nil_append, List.cons.injEq] at hdec
                rw [← hdec.1] at hs
                rw [h] at hs
                cases hs
            | cons a' pre' =>
                simp only [List.cons_append, List.cons.injEq] at hdec
                refine ⟨hg, pre', post, hdec.2, ?_, hs⟩
                intro s' hs'
                exact hpre s' (List.mem_cons_of_mem a' hs')
        · -- check_sig a = .ok true
          simp only [check_format_aux, h, Except.ok.injEq, Option.some.injEq,
            Prod.mk.injEq]
          constructor
          · rintro ⟨hf, ha⟩
            exact ⟨hf.symm, [], rest, by simp [ha], by simp, by rw [← ha]; exact h⟩
          · rintro ⟨hg, pre, post, hdec, hpre, hs⟩
            cases pre with
            | nil =>
                simp only [List.nil_append, List.cons.injEq] at hdec
                exact ⟨hg.symm, hdec.1⟩
            | cons a' pre' =>
                simp only [List.cons_append, List.cons.injEq] at hdec
                have ha' : check_sig a' bof eof = .ok false :=
                  hpre a' (List.mem_cons_self a' pre')
                rw [← hdec.1] at ha'
                rw [h] at ha'
                cases ha'

theorem check_format_fst (f : Format) (bof eof : Buf) (x : Format × Sig)
    (h : check_format f bof eof = .ok (some x)) : x.1 = f := by
  rcases x with ⟨g, s⟩
  exact ((check_format_aux_eq_some_iff f bof eof f.signatures g s).mp h).1

/-- C5: `check_format` reports at most one pair per format: it returns `none`
exactly when no signature of the format matches, and returns `some (g, s)`
exactly when `g` is the format itself and `s` is the first signature in the
format's declared order whose test succeeds (every earlier signature tests to
false). -/
theorem check_format_first_match (f : Format) (bof eof : Buf) :
    (check_format f bof eof = .ok none ↔
        ∀ s ∈ f.signatures, check_sig s bof eof = .ok false)
    ∧ ∀ (g : Format) (s : Sig),
        check_format f bof eof = .ok (some (g, s)) ↔
          g = f ∧ ∃ pre post, f.signatures = pre ++ s :: post ∧
            (∀ s' ∈ pre, check_sig s' bof eof = .ok false) ∧
            check_sig s bof eof = .ok true :=
  ⟨check_format_aux_eq_none_iff f bof eof f.signatures,
   fun g s => check_format_aux_eq_some_iff f bof eof f.signatures g s⟩

/-- C1: a match result returned by `check_formats` never contains a format
that is dominated (via a `Has priority over` related-format entry) by a
different format also present in the result. -/
theorem check_formats_no_dominated (cat : List Format) (bof eof : Buf)
    (R : List (Format × Sig)) (hR : check_formats cat bof eof = .ok R)
    (f : Format) (s : Sig) (g : Format) (t : Sig)
    (hf : (f, s) ∈ R) (hg : (g, t) ∈ R) (hne : g ≠ f) :
    dominates g f = false := by
  unfold check_formats at hR
  rcases h : check_formats_loop bof eof cat [] with e | old
  · rw [h] at hR; cases hR
  · rw [h] at hR
    simp only [Except.ok.injEq] at hR
    subst hR
    have hf' := List.mem_filter.mp hf
    have hg' := List.mem_filter.mp hg
    have hgood : as_good_as_any f old = true := by simpa using hf'.2
    exact (as_good_as_any_eq_true_iff f old).mp hgood (g, t) hg'.1 hne

theorem check_formats_no_dominated_witness :
    check_formats [fmtAW, fmtBW] [7] [7] =
        .ok [(fmtAW, sigAnyW), (fmtBW, sigAnyW)] ∧
      dominates fmtBW fmtAW = false :=
  ⟨by decide,
   check_formats_no_dominated [fmtAW, fmtBW] [7] [7]
     [(fmtAW, sigAnyW), (fmtBW, sigAnyW)] (by decide)
     fmtAW sigAnyW fmtBW sigAnyW (by decide) (by decide) (by decide)⟩

theorem check_sig_aux_ok_true_iff (bof eof : Buf) :
    ∀ (l : List ByteSeq) (m : Bool),
      check_sig_aux bof eof l m = .ok true ↔
        (m = true ∧ ∀ p ∈ l, evalPattern p bof eof = .ok true) := by
  intro l
  induction l with
  | nil => intro m; simp [check_sig_aux]
  | cons b bs ih =>
      intro m
      by_cases h1 : inStr "BOF" b.PositionType
      · by_cases hm : re_match b.regex bof
        · simp [check_sig_aux, evalPattern, h1, hm, ih, List.forall_mem_cons]
        · simp [check_sig_aux, evalPattern, h1, hm, List.forall_mem_cons]
      · by_cases h2 : inStr "EOF" b.PositionType
        · by_cases hm : re_match b.regex eof
          · simp [check_sig_aux, evalPattern, h1, h2, hm, ih, List.forall_mem_cons]
          · simp [check_sig_aux, evalPattern, h1, h2, hm, List.forall_mem_cons]
        · by_cases h3 : inStr "Variable" b.PositionType
          · by_cases hm : re_search b.regex bof
            · simp [check_sig_aux, evalPattern, h1, h2, h3, hm, ih,
                List.forall_mem_cons]
            · simp [check_sig_aux, evalPattern, h1, h2, h3, hm, ih,
                List.forall_mem_cons]
          · simp [check_sig_aux, evalPattern, h1, h2, h3, List.forall_mem_cons]

/-- C4 counterexample: the signature test does not short-circuit at a failing
Variable pattern.  With the head buffer `[1]` the Variable pattern `bVarMissW`
fails, so a short-circuiting test would return failure without looking at any
later pattern; instead, appending the bad-anchor pattern `bBadW` after it
changes the outcome from `ok false` to a raised exception, proving the second
pattern was still evaluated. -/
theorem check_sig_no_variable_shortcircuit :
    check_sig ⟨"s", [bVarMissW]⟩ [1] [1] = .ok false ∧
      check_sig ⟨"s", [bVarMissW, bBadW]⟩ [1] [1] = .error () :=
  ⟨by decide, by decide⟩

/-- C4 (amended): `check_sig` evaluates the signature's patterns in order and
succeeds iff every pattern test succeeds; a failing BOF or EOF pattern
short-circuits the evaluation, but a failing Variable pattern does not stop
it — evaluation continues over the remaining patterns (which can still raise)
with the running match flag cleared, so the overall result is still a
failure. -/
theorem check_sig_conjunction (bof eof : Buf) (b : ByteSeq)
    (bs : List ByteSeq) (sig : Sig) :
    (inStr "BOF" b.PositionType = true → re_match b.regex bof = false →
        ∀ m, check_sig_aux bof eof (b :: bs) m = .ok false)
    ∧ (inStr "BOF" b.PositionType = false → inStr "EOF" b.PositionType = true →
        re_match b.regex eof = false →
        ∀ m, check_sig_aux bof eof (b :: bs) m = .ok false)
    ∧ (inStr "BOF" b.PositionType = false → inStr "EOF" b.PositionType = false →
        inStr "Variable" b.PositionType = true → re_search b.regex bof = false →
        ∀ m, check_sig_aux bof eof (b :: bs) m = check_sig_aux bof eof bs false)
    ∧ (check_sig sig bof eof = .ok true ↔
        ∀ p ∈ sig.bytesequences, evalPattern p bof eof = .ok true) := by
  refine ⟨?_, ?_, ?_, ?_⟩
  · intro h1 hm m
    simp [check_sig_aux, h1, hm]
  · intro h1 h2 hm m
    simp [check_sig_aux, h1, h2, hm]
  · intro h1 h2 h3 hm m
    simp [check_sig_aux, h1, h2, h3, hm]
  · rw [check_sig, check_sig_aux_ok_true_iff]
    simp

theorem check_sig_conjunction_witness :
    check_sig_aux [1] [1] [bVarMissW, bBadW] true =
        check_sig_aux [1] [1] [bBadW] false ∧
      check_sig_aux [1] [1] [bBadW] false = .error () :=
  ⟨(check_sig_conjunction [1] [1] bVarMissW [bBadW] ⟨"s", []⟩).2.2.1
     (by decide) (by decide) (by decide) (by decide) true,
   by decide⟩

/-- C6: a Variable-anchored pattern (a `PositionType` that selects the
Variable branch: no BOF, no EOF, Variable present) is searched in the head
buffer only: its evaluation step is `re_search` on the head buffer, a
single-pattern signature's result is exactly that search, and the result is
unchanged under any replacement of the tail buffer. -/
theorem variable_pattern_head_only (b : ByteSeq)
    (hB : inStr "BOF" b.PositionType = false)
    (hE : inStr "EOF" b.PositionType = false)
    (hV : inStr "Variable" b.PositionType = true)
    (bof eof eof' : Buf) (bs : List ByteSeq) (m : Bool) (nm : String) :
    check_sig_aux bof eof (b :: bs) m =
        check_sig_aux bof eof bs (m && re_search b.regex bof)
    ∧ check_sig ⟨nm, [b]⟩ bof eof = .ok (re_search b.regex bof)
    ∧ check_sig ⟨nm, [b]⟩ bof eof = check_sig ⟨nm, [b]⟩ bof eof' := by
  refine ⟨?_, ?_, ?_⟩
  · cases hs : re_search b.regex bof <;>
      simp [check_sig_aux, hB, hE, hV, hs]
  · cases hs : re_search b.regex bof <;>
      simp [check_sig, check_sig_aux, hB, hE, hV, hs]
  · cases hs : re_search b.regex bof <;>
      simp [check_sig, check_sig_aux, hB, hE, hV, hs]

theorem variable_pattern_head_only_witness :
    check_sig ⟨"s", [bVarMissW]⟩ [1, 2] [9, 1] =
        .ok (re_search bVarMissW.regex [1, 2]) ∧
      re_search bVarMissW.regex [1, 2] = false ∧
      re_search bVarMissW.regex [9, 1] = true :=
  ⟨(variable_pattern_head_only bVarMissW (by decide) (by decide) (by decide)
      [1, 2] [9, 1] [9, 1] [] true "s").2.1,
   by decide, by decide⟩

/-- C10: the anchor of a pattern is chosen by substring containment on its
`PositionType`, tested in the fixed order BOF, EOF, Variable (a string
containing several of them is treated by the first that applies), and a
single-pattern signature test raises exactly when the `PositionType` contains
none of the three substrings. -/
theorem positiontype_dispatch (b : ByteSeq) (bof eof : Buf) (nm : String) :
    (inStr "BOF" b.PositionType = true →
        check_sig ⟨nm, [b]⟩ bof eof = .ok (re_match b.regex bof))
    ∧ (inStr "BOF" b.PositionType = false → inStr "EOF" b.PositionType = true →
        check_sig ⟨nm, [b]⟩ bof eof = .ok (re_match b.regex eof))
    ∧ (inStr "BOF" b.PositionType = false → inStr "EOF" b.PositionType = false →
        inStr "Variable" b.PositionType = true →
        check_sig ⟨nm, [b]⟩ bof eof = .ok (re_search b.regex bof))
    ∧ (check_sig ⟨nm, [b]⟩ bof eof = .error () ↔
        inStr "BOF" b.PositionType = false ∧
          inStr "EOF" b.PositionType = false ∧
          inStr "Variable" b.PositionType = false) := by
  refine ⟨?_, ?_, ?_, ?_⟩
  · intro h1
    cases hm : re_match b.regex bof <;> simp [check_sig, check_sig_aux, h1, hm]
  · intro h1 h2
    cases hm : re_match b.regex eof <;>
      simp [check_sig, check_sig_aux, h1, h2, hm]
  · intro h1 h2 h3
    cases hs : re_search b.regex bof <;>
      simp [check_sig, check_sig_aux, h1, h2, h3, hs]
  · by_cases h1 : inStr "BOF" b.PositionType
    · cases hm : re_match b.regex bof <;> simp [check_sig, check_sig_aux, h1, hm]
    · by_cases h2 : inStr "EOF" b.PositionType
      · cases hm : re_match b.regex eof <;>
          simp [check_sig, check_sig_aux, h1, h2, hm]
      · by_cases h3 : inStr "Variable" b.PositionType
        · cases hs : re_search b.regex bof <;>
            simp [check_sig, check_sig_aux, h1, h2, h3, hs]
        · simp [check_sig, check_sig_aux, h1, h2, h3]

theorem positiontype_dispatch_witness :
    inStr "Variable" bBothW.PositionType = true ∧
      check_sig ⟨"s", [bBothW]⟩ [7] [1] = .ok (re_match bBothW.regex [7]) ∧
      re_match bBothW.regex [7] = true :=
  ⟨by decide, (positiontype_dispatch bBothW [7] [1] "s").1 (by decide),
   by decide⟩

/-- C9: a format that carries no `relatedformat` attribute has an empty set of
priority targets: it dominates no format, and a format can fail the
`as_good_as_any` test only because some other entry of the match list
explicitly lists that format's `FormatID` under `Has priority over`. -/
theorem missing_relatedformat_safe (g f1 : Format) (ml : List (Format × Sig)) :
    (g.relatedformat = none → dominates g f1 = false)
    ∧ (as_good_as_any f1 ml = false →
        ∃ p, p ∈ ml ∧ p.1 ≠ f1 ∧
          ∃ q ∈ p.1.relatedformat.getD [],
            q.1 = "Has priority over" ∧ q.2 = f1.FormatID) := by
  constructor
  · intro h; simp [dominates, h]
  · intro h
    rcases (as_good_as_any_eq_false_iff f1 ml).mp h with ⟨p, hp, hne, hd⟩
    exact ⟨p, hp, hne, (dominates_iff p.1 f1).mp hd⟩

theorem missing_relatedformat_safe_witness :
    dominates fmtAW fmtGENW = false ∧
      ∃ p, p ∈ [(fmtDOCXW, sigPKW)] ∧ p.1 ≠ fmtGENW ∧
        ∃ q ∈ p.1.relatedformat.getD [],
          q.1 = "Has priority over" ∧ q.2 = fmtGENW.FormatID :=
  ⟨(missing_relatedformat_safe fmtAW fmtGENW []).1 rfl,
   (missing_relatedformat_safe fmtAW fmtGENW [(fmtDOCXW, sigPKW)]).2 (by decide)⟩

/-- C2 (bug evaluation): for a 6-byte object and bufsize 4 the random-access
sampler (`check_file`) produces the claimed head and tail, but the streaming
sampler (`check_zipfile`) produces an empty tail buffer instead of the last
four bytes: its skip loop `range(1, n - 1)` together with the `f.read(r)`
already consumes the stream up to end-of-file whenever `B < S < 2B`. -/
theorem zip_sample_tail_bug :
    file_sample 4 [0, 1, 2, 3, 4, 5] = ([0, 1, 2, 3], [2, 3, 4, 5]) ∧
      zip_sample 4 [0, 1, 2, 3, 4, 5] = ([0, 1, 2, 3], []) ∧
      ([0, 1, 2, 3, 4, 5] : List Nat).drop (6 - 4) = [2, 3, 4, 5] := by
  refine ⟨by decide, by decide, by decide⟩

/-- The random-access sampler is correct for every object larger than the
buffer: the head is the first `B` bytes and the tail is the last `B` bytes. -/
theorem file_sample_correct (B : Nat) (content : List Nat)
    (h : content.length > B) :
    file_sample B content =
      (content.take B, content.drop (content.length - B)) := by
  have htake : (content.drop (content.length - B)).take B =
      content.drop (content.length - B) :=
    List.take_of_length_le (by rw [List.length_drop]; omega)
  simp only [file_sample, if_pos h, htake]

theorem file_sample_correct_witness :
    (6 : Nat) > 4 ∧
      file_sample 4 [0, 1, 2, 3, 4, 5] =
        ([0, 1, 2, 3, 4, 5].take 4, [0, 1, 2, 3, 4, 5].drop (6 - 4)) :=
  ⟨by decide, file_sample_correct 4 [0, 1, 2, 3, 4, 5] (by decide)⟩

/-- C3 counterexample: a catalog whose priority references form a two-cycle
(`fmtCycAW` has priority over `fmtCycBW` and vice versa) is loaded
successfully by `fido_init`; no `PriorityCycle` error is raised and the
catalog is constructed. -/
theorem fido_init_accepts_cycle :
    dominates fmtCycAW fmtCycBW = true ∧ dominates fmtCycBW fmtCycAW = true ∧
      fido_init [fmtCycAW, fmtCycBW] = .ok [fmtCycAW, fmtCycBW] := by
  refine ⟨by decide, by decide, by decide⟩

/-- C3 (amended): catalog loading performs no validation of the priority
references at all: `fido_init` never fails (in particular it never raises
`PriorityCycle`) and always constructs the catalog, cyclic priority graphs
included. -/
theorem fido_init_never_fails (formats : List Format) :
    (∀ e, fido_init formats ≠ .error e) ∧
      ∃ cat, fido_init formats = .ok cat :=
  ⟨fun e h => by simp [fido_init] at h, ⟨compile_signatures formats, rfl⟩⟩

/-- C8: the match result of `check_formats` is a pure function of the catalog
and the two buffers.  The instrumented embedding — which threads the clock
oracle, the `current_*` progress fields and both timing accumulators through
the whole computation — returns exactly the pure result from every starting
state, so two runs on the same content (including a rerun from the mutated
state the first run leaves behind) yield identical match lists, independent
of timing. -/
theorem check_formats_deterministic (cat : List Format) (bof eof : Buf)
    (st st' : FidoState) :
    (check_formats_timed cat bof eof st).1 = check_formats cat bof eof ∧
      (check_formats_timed cat bof eof st).1 =
        (check_formats_timed cat bof eof st').1 := by
  refine ⟨check_formats_timed_fst cat bof eof st, ?_⟩
  rw [check_formats_timed_fst cat bof eof st, check_formats_timed_fst cat bof eof st']

/-- For objects of at least two full buffers the streaming sampler is correct
(the skip arithmetic fails only in the region `B < S < 2 B`). -/
theorem zip_sample_correct_of_two_bufs (B : Nat) (content : List Nat)
    (hB : 0 < B) (h2 : 2 * B ≤ content.length) :
    zip_sample B content = (content.take B, content.drop (content.length - B)) := by
  have hgt : content.length > B := by omega
  have hmod : B * (content.length / B) + content.length % B = content.length :=
    Nat.div_add_mod content.length B
  have htake : (content.drop (content.length - B)).take B =
      content.drop (content.length - B) :=
    List.take_of_length_le (by rw [List.length_drop]; omega)
  have hn2 : 2 ≤ content.length / B := (Nat.le_div_iff_mul_le hB).mpr (by omega)
  have harith : B + (content.length / B - 2) * B + content.length % B =
      content.length - B := by
    obtain ⟨k, hk⟩ : ∃ k, content.length / B = k + 2 :=
      ⟨content.length / B - 2, by omega⟩
    rw [hk, Nat.add_sub_cancel]
    have hexp : B * (k + 2) = k * B + 2 * B := by ring
    rw [hk, hexp] at hmod
    generalize k * B = M at hmod ⊢
    omega
  simp only [zip_sample, if_pos hgt, List.drop_drop]
  rw [harith, htake]

/-! ## Permutation invariance under a total priority order -/

theorem exists_max_of_total {α : Type} (R : α → α → Bool) :
    ∀ (l : List α), l ≠ [] →
      (∀ f ∈ l, ∀ g ∈ l, f ≠ g → R f g = true ∨ R g f = true) →
      (∀ f ∈ l, ∀ g ∈ l, ∀ h ∈ l, R f g = true → R g h = true → R f h = true) →
      ∃ m ∈ l, ∀ g ∈ l, g ≠ m → R m g = true := by
  intro l
  induction l with
  | nil => intro h; exact absurd rfl h
  | cons a t ih =>
      intro _ htri htrans
      by_cases ht : t = []
      · subst ht
        refine ⟨a, List.mem_cons_self a [], ?_⟩
        intro g hg hne
        rcases List.mem_singleton.mp hg with rfl
        exact absurd rfl hne
      · obtain ⟨m, hm, hmax⟩ := ih ht
          (fun f hf g hg =>
            htri f (List.mem_cons_of_mem a hf) g (List.mem_cons_of_mem a hg))
          (fun f hf g hg h hh =>
            htrans f (List.mem_cons_of_mem a hf) g (List.mem_cons_of_mem a hg)
              h (List.mem_cons_of_mem a hh))
        by_cases hRa : R m a = true
        · refine ⟨m, List.mem_cons_of_mem a hm, ?_⟩
          intro g hg hne
          rcases List.mem_cons.mp hg with rfl | hg'
          · exact hRa
          · exact hmax g hg' hne
        · by_cases ham : a = m
          · subst ham
            refine ⟨a, List.mem_cons_self a t, ?_⟩
            intro g hg hne
            rcases List.mem_cons.mp hg with rfl | hg'
            · exact absurd rfl hne
            · exact hmax g hg' hne
          · have hRam : R a m = true := by
              rcases htri a (List.mem_cons_self a t) m (List.mem_cons_of_mem a hm)
                  ham with h | h
              · exact h
              · exact absurd h hRa
            refine ⟨a, List.mem_cons_self a t, ?_⟩
            intro g hg hne
            rcases List.mem_cons.mp hg with rfl | hg'
            · exact absurd rfl hne
            · by_cases hgm : g = m
              · rw [hgm]; exact hRam
              · exact htrans a (List.mem_cons_self a t)
                  m (List.mem_cons_of_mem a hm) g (List.mem_cons_of_mem a hg')
                  hRam (hmax g hg' hgm)

theorem check_sig_aux_ok_of_good (bof eof : Buf) :
    ∀ (l : List ByteSeq), (∀ b ∈ l, goodPT b = true) →
      ∀ m, ∃ v, check_sig_aux bof eof l m = .ok v := by
  intro l
  induction l with
  | nil => intro _ m; exact ⟨m, rfl⟩
  | cons b bs ih =>
      intro hgood m
      have hb := hgood b (List.mem_cons_self b bs)
      have hrest : ∀ b' ∈ bs, goodPT b' = true :=
        fun b' hb' => hgood b' (List.mem_cons_of_mem b hb')
      simp only [goodPT, Bool.or_eq_true] at hb
      by_cases h1 : inStr "BOF" b.PositionType = true
      · by_cases hm : re_match b.regex bof = true
        · simpa [check_sig_aux, h1, hm] using ih hrest m
        · exact ⟨false, by simp [check_sig_aux, h1, hm]⟩
      · by_cases h2 : inStr "EOF" b.PositionType = true
        · by_cases hm : re_match b.regex eof = true
          · simpa [check_sig_aux, h1, h2, hm] using ih hrest m
          · exact ⟨false, by simp [check_sig_aux, h1, h2, hm]⟩
        · by_cases h3 : inStr "Variable" b.PositionType = true
          · by_cases hs : re_search b.regex bof = true
            · simpa [check_sig_aux, h1, h2, h3, hs] using ih hrest m
            · simpa [check_sig_aux, h1, h2, h3, hs] using ih hrest false
          · rcases hb with (h | h) | h
            · exact absurd h h1
            · exact absurd h h2
            · exact absurd h h3

theorem check_format_aux_ok_of_good (f : Format) (bof eof : Buf) :
    ∀ (l : List Sig), (∀ s ∈ l, ∀ b ∈ s.bytesequences, goodPT b = true) →
      ∃ o, check_format_aux f bof eof l = .ok o := by
  intro l
  induction l with
  | nil => exact fun _ => ⟨none, rfl⟩
  | cons s rest ih =>
      intro hgood
      obtain ⟨v, hv⟩ := check_sig_aux_ok_of_good bof eof s.bytesequences
        (hgood s (List.mem_cons_self s rest)) true
      have hv' : check_sig s bof eof = .ok v := hv
      cases v with
      | true => exact ⟨some (f, s), by simp [check_format_aux, hv']⟩
      | false =>
          obtain ⟨o, ho⟩ := ih fun s' hs' => hgood s' (List.mem_cons_of_mem s hs')
          exact ⟨o, by simp [check_format_aux, hv', ho]⟩

theorem check_format_ok_of_clean (f : Format) (bof eof : Buf)
    (h : cleanFormat f = true) : ∃ o, check_format f bof eof = .ok o := by
  apply check_format_aux_ok_of_good
  intro s hs b hb
  simp only [cleanFormat, List.all_eq_true] at h
  exact h s hs b hb

theorem fmtMatches_of_some (g : Format) (bof eof : Buf) (x : Format × Sig)
    (h : check_format g bof eof = .ok (some x)) :
    fmtMatches g bof eof = true := by
  simp [fmtMatches, h]

theorem fmtMatches_iff (f : Format) (bof eof : Buf) :
    fmtMatches f bof eof = true ↔
      ∃ s, check_format f bof eof = .ok (some (f, s)) := by
  unfold fmtMatches
  rcases h : check_format f bof eof with e | o
  · simp
  · cases o with
    | none => simp
    | some x =>
        have hx : x = (f, x.2) := by
          rcases x with ⟨g, s⟩
          have := check_format_fst f bof eof (g, s) h
          simp only at this
          rw [this]
        simp only
        constructor
        · intro _
          exact ⟨x.2, by rw [← hx]⟩
        · intro _; trivial

theorem check_formats_loop_basic (bof eof : Buf) :
    ∀ (l : List Format) (result : List (Format × Sig)),
      (∀ f ∈ l, cleanFormat f = true) →
      ∃ R, check_formats_loop bof eof l result = .ok R ∧
        ∀ x ∈ R, x ∈ result ∨
          (x.1 ∈ l ∧ check_format x.1 bof eof = .ok (some x)) := by
  intro l
  induction l with
  | nil =>
      intro result _
      exact ⟨result, rfl, fun x hx => Or.inl hx⟩
  | cons f rest ih =>
      intro result hclean
      have hfclean := hclean f (List.mem_cons_self f rest)
      have hrest : ∀ f' ∈ rest, cleanFormat f' = true :=
        fun f' hf' => hclean f' (List.mem_cons_of_mem f hf')
      by_cases hg : as_good_as_any f result = true
      · obtain ⟨o, ho⟩ := check_format_ok_of_clean f bof eof hfclean
        cases o with
        | none =>
            obtain ⟨R, hR, hmem⟩ := ih result hrest
            refine ⟨R, by simp [check_formats_loop, hg, ho, hR], ?_⟩
            intro x hx
            rcases hmem x hx with h | ⟨h1, h2⟩
            · exact Or.inl h
            · exact Or.inr ⟨List.mem_cons_of_mem f h1, h2⟩
        | some x =>
            obtain ⟨R, hR, hmem⟩ := ih (result ++ [x]) hrest
            refine ⟨R, by simp [check_formats_loop, hg, ho, hR], ?_⟩
            intro y hy
            rcases hmem y hy with h | ⟨h1, h2⟩
            · rcases List.mem_append.mp h with h' | h'
              · exact Or.inl h'
              · rcases List.mem_singleton.mp h' with rfl
                have hy1 : y.1 = f := check_format_fst f bof eof y ho
                refine Or.inr ⟨?_, ?_⟩
                · rw [hy1]; exact List.mem_cons_self f rest
                · rw [hy1]; exact ho
            · exact Or.inr ⟨List.mem_cons_of_mem f h1, h2⟩
      · have hg' : as_good_as_any f result = false := by
          simpa using hg
        obtain ⟨R, hR, hmem⟩ := ih result hrest
        refine ⟨R, by simp [check_formats_loop, hg', hR], ?_⟩
        intro x hx
        rcases hmem x hx with h | ⟨h1, h2⟩
        · exact Or.inl h
        · exact Or.inr ⟨List.mem_cons_of_mem f h1, h2⟩

theorem check_formats_loop_spec (bof eof : Buf) (cat : List Format) (m : Format)
    (hmM : fmtMatches m bof eof = true)
    (hmax : ∀ g ∈ cat, fmtMatches g bof eof = true → g ≠ m →
      dominates m g = true ∧ dominates g m = false) :
    ∀ (l : List Format) (result : List (Format × Sig)),
      (∀ f ∈ l, f ∈ cat ∧ cleanFormat f = true) →
      (∀ x ∈ result, x.1 ∈ cat ∧ check_format x.1 bof eof = .ok (some x)) →
      (m ∈ l ∨ ∃ s, (m, s) ∈ result) →
      ∃ R, check_formats_loop bof eof l result = .ok R ∧
        (∀ x ∈ R, x.1 ∈ cat ∧ check_format x.1 bof eof = .ok (some x)) ∧
        (∀ x ∈ result, x ∈ R) ∧
        (∃ s, (m, s) ∈ R) := by
  intro l
  induction l with
  | nil =>
      intro result _ hres hm
      refine ⟨result, rfl, hres, fun x hx => hx, ?_⟩
      rcases hm with h | h
      · exact absurd h (List.not_mem_nil m)
      · exact h
  | cons f rest ih =>
      intro result hl hres hm
      obtain ⟨hfcat, hfclean⟩ := hl f (List.mem_cons_self f rest)
      have hlrest : ∀ f' ∈ rest, f' ∈ cat ∧ cleanFormat f' = true :=
        fun f' hf' => hl f' (List.mem_cons_of_mem f hf')
      by_cases hg : as_good_as_any f result = true
      · obtain ⟨o, ho⟩ := check_format_ok_of_clean f bof eof hfclean
        cases o with
        | none =>
            have hm' : m ∈ rest ∨ ∃ s, (m, s) ∈ result := by
              rcases hm with h | h
              · rcases List.mem_cons.mp h with rfl | h'
                · exfalso
                  obtain ⟨s, hs⟩ := (fmtMatches_iff m bof eof).mp hmM
                  rw [ho] at hs
                  cases hs
                · exact Or.inl h'
              · exact Or.inr h
            obtain ⟨R, hR, hinv, hsub, hmR⟩ := ih result hlrest hres hm'
            exact ⟨R, by simp [check_formats_loop, hg, ho, hR], hinv, hsub, hmR⟩
        | some x =>
            have hx1 : x.1 = f := check_format_fst f bof eof x ho
            have hres' : ∀ y ∈ result ++ [x],
                y.1 ∈ cat ∧ check_format y.1 bof eof = .ok (some y) := by
              intro y hy
              rcases List.mem_append.mp hy with hy' | hy'
              · exact hres y hy'
              · rcases List.mem_singleton.mp hy' with rfl
                refine ⟨?_, ?_⟩
                · rw [hx1]; exact hfcat
                · rw [hx1]; exact ho
            have hm' : m ∈ rest ∨ ∃ s, (m, s) ∈ result ++ [x] := by
              rcases hm with h | h
              · rcases List.mem_cons.mp h with heq | h'
                · refine Or.inr ⟨x.2, ?_⟩
                  have hxm : x = (m, x.2) := by
                    rcases x with ⟨g, s⟩
                    simp only at hx1 ⊢
                    rw [hx1, heq]
                  rw [← hxm]
                  exact List.mem_append_right result (List.mem_singleton.mpr rfl)
                · exact Or.inl h'
              · rcases h with ⟨s, hs⟩
                exact Or.inr ⟨s, List.mem_append_left _ hs⟩
            obtain ⟨R, hR, hinv, hsub, hmR⟩ := ih (result ++ [x]) hlrest hres' hm'
            refine ⟨R, by simp [check_formats_loop, hg, ho, hR], hinv,
              fun y hy => hsub y (List.mem_append_left _ hy), hmR⟩
      · have hg' : as_good_as_any f result = false := by simpa using hg
        have hfm : ¬(m = f) := by
          intro heq
          apply hg
          rw [as_good_as_any_eq_true_iff]
          intro p hp hne
          rw [← heq] at hne ⊢
          obtain ⟨hpcat, hpfmt⟩ := hres p hp
          have hpM : fmtMatches p.1 bof eof = true :=
            fmtMatches_of_some p.1 bof eof p hpfmt
          exact (hmax p.1 hpcat hpM hne).2
        have hm' : m ∈ rest ∨ ∃ s, (m, s) ∈ result := by
          rcases hm with h | h
          · rcases List.mem_cons.mp h with heq | h'
            · exact absurd heq hfm
            · exact Or.inl h'
          · exact Or.inr h
        obtain ⟨R, hR, hinv, hsub, hmR⟩ := ih result hlrest hres hm'
        exact ⟨R, by simp [check_formats_loop, hg', hR], hinv, hsub, hmR⟩

theorem check_formats_char (cat : List Format) (bof eof : Buf)
    (hclean : ∀ f ∈ cat, cleanFormat f = true)
    (htri : ∀ f ∈ cat, ∀ g ∈ cat, fmtMatches f bof eof = true →
      fmtMatches g bof eof = true → f ≠ g →
      dominates f g = true ∨ dominates g f = true)
    (hasym : ∀ f ∈ cat, ∀ g ∈ cat, fmtMatches f bof eof = true →
      fmtMatches g bof eof = true → f ≠ g → dominates f g = true →
      dominates g f = false)
    (htrans : ∀ f ∈ cat, ∀ g ∈ cat, ∀ h ∈ cat, fmtMatches f bof eof = true →
      fmtMatches g bof eof = true → fmtMatches h bof eof = true →
      dominates f g = true → dominates g h = true → dominates f h = true) :
    ∃ R, check_formats cat bof eof = .ok R ∧
      ∀ x, x ∈ R ↔ (x.1 ∈ cat ∧ check_format x.1 bof eof = .ok (some x) ∧
        ∀ g ∈ cat, fmtMatches g bof eof = true → g ≠ x.1 →
          dominates x.1 g = true) := by
  by_cases hM : ∃ f ∈ cat, fmtMatches f bof eof = true
  · -- at least one format matches: the unique maximal matcher wins
    obtain ⟨f0, hf0, hf0M⟩ := hM
    have hms : f0 ∈ cat.filter fun f => fmtMatches f bof eof :=
      List.mem_filter.mpr ⟨hf0, hf0M⟩
    obtain ⟨m, hmms, hmaxw⟩ := exists_max_of_total dominates
      (cat.filter fun f => fmtMatches f bof eof)
      (List.ne_nil_of_mem hms)
      (fun f hf g hg hne =>
        htri f (List.mem_filter.mp hf).1 g (List.mem_filter.mp hg).1
          (List.mem_filter.mp hf).2 (List.mem_filter.mp hg).2 hne)
      (fun f hf g hg h hh =>
        htrans f (List.mem_filter.mp hf).1 g (List.mem_filter.mp hg).1
          h (List.mem_filter.mp hh).1 (List.mem_filter.mp hf).2
          (List.mem_filter.mp hg).2 (List.mem_filter.mp hh).2)
    obtain ⟨hmcat, hmM⟩ := List.mem_filter.mp hmms
    have hmax : ∀ g ∈ cat, fmtMatches g bof eof = true → g ≠ m →
        dominates m g = true ∧ dominates g m = false := by
      intro g hg hgM hne
      have hd := hmaxw g (List.mem_filter.mpr ⟨hg, hgM⟩) hne
      exact ⟨hd, hasym m hmcat g hg hmM hgM (Ne.symm hne) hd⟩
    obtain ⟨R, hR, hinv, _, s0, hms0⟩ := check_formats_loop_spec bof eof cat m
      hmM hmax cat [] (fun f hf => ⟨hf, hclean f hf⟩) (by simp) (Or.inl hmcat)
    have hmfmt : check_format m bof eof = .ok (some (m, s0)) := by
      have := (hinv (m, s0) hms0).2
      simpa using this
    refine ⟨R.filter fun p => as_good_as_any p.1 R,
      by simp [check_formats, hR], ?_⟩
    intro x
    constructor
    · intro hx
      obtain ⟨hxR, hxgood⟩ := List.mem_filter.mp hx
      obtain ⟨hxcat, hxsome⟩ := hinv x hxR
      have hxM : fmtMatches x.1 bof eof = true :=
        fmtMatches_of_some x.1 bof eof x hxsome
      have hx1 : x.1 = m := by
        by_contra hne
        have hdom : dominates m x.1 = true := (hmax x.1 hxcat hxM hne).1
        have hgood : as_good_as_any x.1 R = true := by simpa using hxgood
        have := (as_good_as_any_eq_true_iff x.1 R).mp hgood (m, s0) hms0
          (by simpa using Ne.symm hne)
        rw [this] at hdom
        cases hdom
      refine ⟨hxcat, hxsome, ?_⟩
      intro g hg hgM hgne
      rw [hx1]
      exact (hmax g hg hgM (by rw [hx1] at hgne; exact hgne)).1
    · rintro ⟨hxcat, hxsome, hxmax⟩
      have hxM : fmtMatches x.1 bof eof = true :=
        fmtMatches_of_some x.1 bof eof x hxsome
      have hx1 : x.1 = m := by
        by_contra hne
        have h1 : dominates x.1 m = false := (hmax x.1 hxcat hxM hne).2
        have h2 : dominates x.1 m = true :=
          hxmax m hmcat hmM (Ne.symm hne)
        rw [h1] at h2
        cases h2
      have hxeq : x = (m, s0) := by
        rw [hx1] at hxsome
        rw [hmfmt] at hxsome
        injection hxsome with h
        exact (Option.some.inj h).symm
      apply List.mem_filter.mpr
      refine ⟨by rw [hxeq]; exact hms0, ?_⟩
      show as_good_as_any x.1 R = true
      rw [as_good_as_any_eq_true_iff]
      intro p hp hne
      rw [hx1]
      obtain ⟨hpcat, hpfmt⟩ := hinv p hp
      have hpM : fmtMatches p.1 bof eof = true :=
        fmtMatches_of_some p.1 bof eof p hpfmt
      have hne' : p.1 ≠ m := by rw [← hx1]; exact hne
      exact (hmax p.1 hpcat hpM hne').2
  · -- no format matches: the result is empty and the right side is absurd
    obtain ⟨R, hR, hmem⟩ := check_formats_loop_basic bof eof cat []
      (fun f hf => hclean f hf)
    refine ⟨R.filter fun p => as_good_as_any p.1 R,
      by simp [check_formats, hR], ?_⟩
    intro x
    constructor
    · intro hx
      exfalso
      have hxR := (List.mem_filter.mp hx).1
      rcases hmem x hxR with h | ⟨h1, h2⟩
      · exact absurd h (List.not_mem_nil x)
      · exact hM ⟨x.1, h1, fmtMatches_of_some x.1 bof eof x h2⟩
    · rintro ⟨hxcat, hxsome, _⟩
      exact absurd ⟨x.1, hxcat, fmtMatches_of_some x.1 bof eof x hxsome⟩ hM

/-- C7: on a catalog whose priority relation is a strict total order
(trichotomous, asymmetric, transitive) among the formats that match the given
buffers, and whose formats all carry recognised anchors, the set of
`(Format, Signature)` pairs returned by `check_formats` is the same for every
permutation of the catalog's format order. -/
theorem check_formats_perm_invariant (cat1 cat2 : List Format) (bof eof : Buf)
    (hperm : cat1.Perm cat2)
    (hclean : ∀ f ∈ cat1, cleanFormat f = true)
    (htri : ∀ f ∈ cat1, ∀ g ∈ cat1, fmtMatches f bof eof = true →
      fmtMatches g bof eof = true → f ≠ g →
      dominates f g = true ∨ dominates g f = true)
    (hasym : ∀ f ∈ cat1, ∀ g ∈ cat1, fmtMatches f bof eof = true →
      fmtMatches g bof eof = true → f ≠ g → dominates f g = true →
      dominates g f = false)
    (htrans : ∀ f ∈ cat1, ∀ g ∈ cat1, ∀ h ∈ cat1,
      fmtMatches f bof eof = true → fmtMatches g bof eof = true →
      fmtMatches h bof eof = true → dominates f g = true →
      dominates g h = true → dominates f h = true) :
    ∃ R1 R2, check_formats cat1 bof eof = .ok R1 ∧
      check_formats cat2 bof eof = .ok R2 ∧ ∀ x, x ∈ R1 ↔ x ∈ R2 := by
  have hmem : ∀ f : Format, f ∈ cat1 ↔ f ∈ cat2 := fun f => hperm.mem_iff
  obtain ⟨R1, hR1, hch1⟩ :=
    check_formats_char cat1 bof eof hclean htri hasym htrans
  obtain ⟨R2, hR2, hch2⟩ := check_formats_char cat2 bof eof
    (fun f hf => hclean f ((hmem f).mpr hf))
    (fun f hf g hg => htri f ((hmem f).mpr hf) g ((hmem g).mpr hg))
    (fun f hf g hg => hasym f ((hmem f).mpr hf) g ((hmem g).mpr hg))
    (fun f hf g hg h hh =>
      htrans f ((hmem f).mpr hf) g ((hmem g).mpr hg) h ((hmem h).mpr hh))
  refine ⟨R1, R2, hR1, hR2, fun x => ?_⟩
  rw [hch1 x, hch2 x]
  constructor
  · rintro ⟨h1, h2, h3⟩
    exact ⟨(hmem x.1).mp h1, h2,
      fun g hg hgM hne => h3 g ((hmem g).mpr hg) hgM hne⟩
  · rintro ⟨h1, h2, h3⟩
    exact ⟨(hmem x.1).mpr h1, h2,
      fun g hg hgM hne => h3 g ((hmem g).mp hg) hgM hne⟩

theorem check_formats_perm_invariant_witness :
    ∃ R1 R2, check_formats [fmtGENW, fmtDOCXW] [80, 75] [80, 75] = .ok R1 ∧
      check_formats [fmtDOCXW, fmtGENW] [80, 75] [80, 75] = .ok R2 ∧
      ∀ x, x ∈ R1 ↔ x ∈ R2 :=
  check_formats_perm_invariant [fmtGENW, fmtDOCXW] [fmtDOCXW, fmtGENW]
    [80, 75] [80, 75] (by decide) (by decide) (by decide) (by decide) (by decide)
